import Mathlib

/-!
# Verification of the Municode fetch-and-clean core

A shallow embedding, over `List Char`, of the content-cleaning pipeline
(`MunicodeClient.get_clean_content`), the node-id builder
(`MunicodeClient.build_node_id`), the document-record construction
(`MunicodeClient.get_chapter_content`), and the chapter-discovery /
deduplication / per-chapter-fetch loop
(`MunicodeFetcher.fetch_all_austin_chapters`) of the setbacks-app
repository, together with proofs and refutations of the specification's
claims about them.

Strings are modelled as `List Char`.  Python regular-expression
substitution (`re.sub`) with the concrete patterns used by the source is
modelled by left-to-right scanners that advance one character when no
match starts at the current position and jump over a match otherwise,
exactly as the `re` engine does for these backtracking-free patterns.
`str.replace` is modelled the same way (left-to-right, non-overlapping).
-/

namespace Setbacks

/-- Python's whitespace class: the characters matched by `\s` in an `str`
pattern and stripped by `str.strip()` (`str.isspace`). -/
def isPySpace (c : Char) : Bool :=
  c = ' ' || c = '\t' || c = '\n' || c = '\r' || c = '\x0b' || c = '\x0c' ||
  (0x1c ≤ c.val && c.val ≤ 0x1f) || c.val = 0x85 || c.val = 0xa0 ||
  c.val = 0x1680 || (0x2000 ≤ c.val && c.val ≤ 0x200a) ||
  c.val = 0x2028 || c.val = 0x2029 || c.val = 0x202f || c.val = 0x205f ||
  c.val = 0x3000

/-- The character class `[A-Z]`. -/
def isUpper (c : Char) : Bool := 'A' ≤ c && c ≤ 'Z'

/-- `leadsWith p l`: `p` occurs at the very start of `l`. -/
def leadsWith : List Char → List Char → Bool
  | [], _ => true
  | _ :: _, [] => false
  | p :: ps, c :: rest => p = c && leadsWith ps rest

/-- `hasSub p l`: `p` occurs contiguously somewhere in `l`. -/
def hasSub (p : List Char) : List Char → Bool
  | [] => p.isEmpty
  | c :: rest => leadsWith p (c :: rest) || hasSub p rest

/-- Python `s.split(sep)` for a one-character separator: every occurrence
splits, adjacent separators produce empty parts, and the result is never
empty. -/
def pySplit (sep : Char) : List Char → List (List Char)
  | [] => [[]]
  | c :: rest =>
    match pySplit sep rest with
    | [] => [[]]
    | p :: ps => if c = sep then [] :: p :: ps else (c :: p) :: ps

/-- Python `sep.join(parts)`. -/
def pyJoin (sep : List Char) : List (List Char) → List Char
  | [] => []
  | [x] => x
  | x :: y :: rest => x ++ sep ++ pyJoin sep (y :: rest)

/-- Remove trailing Python whitespace (the tail end of `str.strip()`). -/
def dropTrail (l : List Char) : List Char :=
  (l.reverse.dropWhile isPySpace).reverse

/-- Python `str.strip()`: remove leading and trailing whitespace. -/
def pyStrip (l : List Char) : List Char :=
  dropTrail (l.dropWhile isPySpace)

/-- `re.sub(r'<div[^>]*>', '\n', content)`: replace every `<div`,
any run of non-`>` characters, `>` by a newline. -/
def subDivOpen (l : List Char) : List Char :=
  match l with
  | [] => []
  | c :: rest =>
    if c = '<' ∧ leadsWith "div".data rest then
      if (rest.drop 3).dropWhile (fun d => d ≠ '>') = [] then c :: subDivOpen rest
      else '\n' :: subDivOpen ((rest.drop 3).dropWhile (fun d => d ≠ '>')).tail
    else c :: subDivOpen rest
termination_by l.length
decreasing_by
  · simp only [List.length_cons]; omega
  · have h1 : ((rest.drop 3).dropWhile (fun d => d ≠ '>')).length ≤ (rest.drop 3).length :=
      (List.dropWhile_sublist _).length_le
    have h2 := List.length_tail ((rest.drop 3).dropWhile (fun d => d ≠ '>'))
    simp only [List.length_cons, List.length_drop] at h1 h2 ⊢
    omega
  · simp only [List.length_cons]; omega

/-- `content.replace('</div>', '')`: drop every occurrence of `</div>`,
scanning left to right. -/
def replaceCloseDiv : List Char → List Char
  | '<' :: '/' :: 'd' :: 'i' :: 'v' :: '>' :: rest => replaceCloseDiv rest
  | c :: rest => c :: replaceCloseDiv rest
  | [] => []

/-- `re.sub(r'<br\s*/?>', '\n', content)`: `<br`, optional whitespace,
optional `/`, then `>`, replaced by a newline. -/
def subBr (l : List Char) : List Char :=
  match l with
  | [] => []
  | c :: rest =>
    if c = '<' ∧ leadsWith "br".data rest then
      if leadsWith ['>'] ((rest.drop 2).dropWhile isPySpace) then
        '\n' :: subBr (((rest.drop 2).dropWhile isPySpace).drop 1)
      else if leadsWith ['/', '>'] ((rest.drop 2).dropWhile isPySpace) then
        '\n' :: subBr (((rest.drop 2).dropWhile isPySpace).drop 2)
      else c :: subBr rest
    else c :: subBr rest
termination_by l.length
decreasing_by
  · have h1 : ((rest.drop 2).dropWhile isPySpace).length ≤ (rest.drop 2).length :=
      (List.dropWhile_sublist _).length_le
    simp only [List.length_cons, List.length_drop] at h1 ⊢
    omega
  · have h1 : ((rest.drop 2).dropWhile isPySpace).length ≤ (rest.drop 2).length :=
      (List.dropWhile_sublist _).length_le
    simp only [List.length_cons, List.length_drop] at h1 ⊢
    omega
  · simp only [List.length_cons]; omega
  · simp only [List.length_cons]; omega

/-- `re.sub(r'<[^>]*>', '', content)`: strip every remaining
`<`…`>` tag. -/
def stripTags (l : List Char) : List Char :=
  match l with
  | [] => []
  | c :: rest =>
    if c = '<' then
      if rest.dropWhile (fun d => d ≠ '>') = [] then c :: stripTags rest
      else stripTags (rest.dropWhile (fun d => d ≠ '>')).tail
    else c :: stripTags rest
termination_by l.length
decreasing_by
  · simp only [List.length_cons]; omega
  · have h1 : (rest.dropWhile (fun d => d ≠ '>')).length ≤ rest.length :=
      (List.dropWhile_sublist _).length_le
    have h2 := List.length_tail (rest.dropWhile (fun d => d ≠ '>'))
    simp only [List.length_cons] at h1 h2 ⊢
    omega
  · simp only [List.length_cons]; omega

/-- `content.replace('&nbsp;', ' ')`: scanning left to right, each
occurrence of `&nbsp;` becomes one space. -/
def replaceNbsp (l : List Char) : List Char :=
  match l with
  | [] => []
  | c :: rest =>
    if leadsWith "&nbsp;".data (c :: rest) then ' ' :: replaceNbsp ((c :: rest).drop 6)
    else c :: replaceNbsp rest
termination_by l.length
decreasing_by
  · simp only [List.length_cons, List.length_drop]; omega
  · simp only [List.length_cons]; omega

/-- Both `re.sub(r'\\\"([A-Z])\\\"', '"\1"', content)` and
`re.sub(r'\\"([A-Z])\\"', '"\1"', content)` — the two regexes are the
same pattern (backslash, quote, one uppercase letter, backslash, quote).
The replacement string `'"\1"'` is not a raw string, so Python reads
`\1` as the octal escape for the character U+0001: the replacement text
is quote, U+0001, quote, and the captured letter is discarded. -/
def quoteSub (l : List Char) : List Char :=
  match l with
  | '\\' :: '"' :: d :: '\\' :: '"' :: rest2 =>
    if isUpper d then '"' :: '\x01' :: '"' :: quoteSub rest2
    else '\\' :: quoteSub ('"' :: d :: '\\' :: '"' :: rest2)
  | c :: rest => c :: quoteSub rest
  | [] => []
termination_by l.length
decreasing_by all_goals simp only [List.length_cons]; omega

/-- `content.replace('\\n', '\n')`: the two-character sequence
backslash-`n` becomes a newline. -/
def replaceEscN : List Char → List Char
  | '\\' :: 'n' :: rest => '\n' :: replaceEscN rest
  | c :: rest => c :: replaceEscN rest
  | [] => []

/-- `content.replace('\\"', '"')`: the two-character sequence
backslash-quote becomes a quote. -/
def replaceEscQ : List Char → List Char
  | '\\' :: '"' :: rest => '"' :: replaceEscQ rest
  | c :: rest => c :: replaceEscQ rest
  | [] => []

/-- State machine for `re.sub(r'\s+', ' ', content)`: the flag records
whether the scanner is inside a whitespace run (a single space is
emitted at the start of each run). -/
def collapseWsAux (inRun : Bool) : List Char → List Char
  | [] => []
  | c :: rest =>
    if isPySpace c then
      if inRun then collapseWsAux true rest
      else ' ' :: collapseWsAux true rest
    else c :: collapseWsAux false rest

/-- `re.sub(r'\s+', ' ', content)`: every maximal run of whitespace
(including newlines) becomes a single space. -/
def collapseWs (l : List Char) : List Char := collapseWsAux false l

/-- `re.sub(r'\n\s*\n+', '\n\n', content)`: a newline, then greedy
whitespace followed by at least one more newline — the match extends
through the last newline of the whitespace run — replaced by exactly
two newlines. -/
def collapseNl (l : List Char) : List Char :=
  match l with
  | [] => []
  | c :: rest =>
    if c = '\n' ∧ '\n' ∈ rest.takeWhile isPySpace then
      '\n' :: '\n' ::
        collapseNl
          ((((rest.takeWhile isPySpace).reverse.takeWhile (fun d => d ≠ '\n')).reverse)
            ++ rest.drop (rest.takeWhile isPySpace).length)
    else c :: collapseNl rest
termination_by l.length
decreasing_by
  · rename_i hcond
    have hmem : '\n' ∈ (rest.takeWhile isPySpace).reverse := by
      simpa using hcond.2
    have hsplit := List.takeWhile_append_dropWhile
      (p := fun d => decide (d ≠ '\n')) (l := (rest.takeWhile isPySpace).reverse)
    have hne : ((rest.takeWhile isPySpace).reverse.dropWhile (fun d => d ≠ '\n')) ≠ [] := by
      intro hnil
      rw [hnil, List.append_nil] at hsplit
      have := List.mem_takeWhile_imp (hsplit ▸ hmem)
      simp at this
    have h1 : ((rest.takeWhile isPySpace).reverse.takeWhile (fun d => d ≠ '\n')).length
        < (rest.takeWhile isPySpace).reverse.length := by
      conv_rhs => rw [← hsplit]
      rw [List.length_append]
      have : 0 < ((rest.takeWhile isPySpace).reverse.dropWhile (fun d => d ≠ '\n')).length :=
        List.length_pos.mpr hne
      omega
    have h2 : (rest.takeWhile isPySpace).length ≤ rest.length :=
      (List.takeWhile_sublist _).length_le
    simp only [List.length_append, List.length_reverse, List.length_cons,
      List.length_drop] at h1 ⊢
    omega
  · simp only [List.length_cons]; omega

/-- The stages of `get_clean_content` before whitespace normalization:
tag handling, entity replacement and escape handling, in source order. -/
def preWsStage (s : List Char) : List Char :=
  replaceEscQ (replaceEscN (quoteSub (quoteSub
    (replaceNbsp (stripTags (subBr (replaceCloseDiv (subDivOpen s))))))))

/-- The body of `MunicodeClient.get_clean_content` for non-empty input:
the full cleaning pipeline in source order, ending with split on
newlines, per-line strip, dropping empty lines, rejoin and final
strip. -/
def cleanCore (s : List Char) : List Char :=
  let content := preWsStage s
  let content2 := collapseWs content
  let content3 := collapseNl content2
  let lines := (pySplit '\n' content3).map pyStrip
  pyStrip (pyJoin ['\n'] (lines.filter (fun line => line ≠ [])))

/-- `MunicodeClient.get_clean_content(content)`: `None` and the empty
string short-circuit to the empty string; otherwise the cleaning
pipeline runs. -/
def get_clean_content : Option (List Char) → List Char
  | none => []
  | some [] => []
  | some s => cleanCore s

/-- `MunicodeClient.build_node_id(title, chapter, subchapter, article)`.
The optional parts are appended only when truthy (Python `if subchapter:`
is false for `None` and for the empty string). -/
def build_node_id (title chapter : String) (subchapter article : Option String) : String :=
  let node_id := "TIT" ++ title ++ "_CH" ++ chapter
  let node_id2 :=
    match subchapter with
    | some s => if s = "" then node_id else node_id ++ "_" ++ s
    | none => node_id
  match article with
  | some a => if a = "" then node_id2 else node_id2 ++ "_" ++ a
  | none => node_id2

/-- One element of the discovery listing: `chapter.get('Id', '')` reads
an optional `Id` field, defaulting to the empty string. -/
structure ListingNode where
  Id : Option (List Char)

/-- `chapter.get('Id', '')`. -/
def nodeId (n : ListingNode) : List Char := n.Id.getD []

/-- `'_'.join(node_id.split('_')[:2])`: the base chapter key — the
first two underscore-delimited segments of an id. -/
def chapterKey (id : List Char) : List Char :=
  pyJoin ['_'] ((pySplit '_' id).take 2)

/-- `len(node_id.split('_'))`. -/
def numSegments (id : List Char) : Nat := (pySplit '_' id).length

/-- The body of the `for chapter in chapters` loop of
`MunicodeFetcher.fetch_all_austin_chapters`, up to the point where an
exception may be raised: skip empty ids, skip already-processed base
chapters, skip ids with more than two segments, then attempt the fetch
(`fail` says whether fetching/persisting that chapter raises).  Returns
the new processed set (with insertion order) and the attempted key, or
the error carrying the attempted key. -/
def loopBody (fail : List Char → Bool) (processed : List (List Char)) (n : ListingNode) :
    Except (List Char) (List (List Char) × Option (List Char)) :=
  let node_id := nodeId n
  if node_id = [] then .ok (processed, none)
  else
    let base_chapter := chapterKey node_id
    if base_chapter ∈ processed then .ok (processed, none)
    else if 2 < numSegments node_id then .ok (processed, none)
    else if fail base_chapter then .error base_chapter
    else .ok (processed ++ [base_chapter], some base_chapter)

/-- The `for chapter in chapters` loop with its `except` clause: an
error from the body is caught and the loop continues with the processed
set unchanged.  Returns the final processed keys (in insertion order)
and the keys whose fetch was attempted (in order). -/
def runLoop (fail : List Char → Bool) :
    List ListingNode → List (List Char) → List (List Char) × List (List Char)
  | [], processed => (processed, [])
  | n :: rest, processed =>
    match loopBody fail processed n with
    | .ok (p2, att) =>
      let r := runLoop fail rest p2
      (r.1, att.toList ++ r.2)
    | .error k =>
      let r := runLoop fail rest processed
      (r.1, k :: r.2)

/-- `MunicodeFetcher.fetch_all_austin_chapters`, starting from an empty
processed set. -/
def fetch_all_austin_chapters (fail : List Char → Bool) (chapters : List ListingNode) :
    List (List Char) × List (List Char) :=
  runLoop fail chapters []

/-- The pure deduplication behaviour of the loop: the chapter keys
emitted (added to the processed set), in order, when every fetch
succeeds. -/
def dedupeChapters (chapters : List ListingNode) : List (List Char) :=
  (fetch_all_austin_chapters (fun _ => false) chapters).1

/-- Chapter-key emission as the specification words it: iterate nodes in
input order; skip a node with empty id; skip a node whose id has more
than two underscore-delimited segments; the key is the first two
underscore-delimited segments; skip a key already emitted; otherwise
emit.  Stated from the spec text, to be compared with the loop
translated from the code. -/
def specDedupGo (emitted : List (List Char)) : List (List Char) → List (List Char)
  | [] => []
  | id :: rest =>
    if id = [] then specDedupGo emitted rest
    else if 2 < (pySplit '_' id).length then specDedupGo emitted rest
    else if chapterKey id ∈ emitted then specDedupGo emitted rest
    else chapterKey id :: specDedupGo (chapterKey id :: emitted) rest

/-- Chapter-key emission as the specification words it, from an empty
emitted set. -/
def specDedup (ids : List (List Char)) : List (List Char) :=
  specDedupGo [] ids

/-- One raw element of the API `Docs` array: every field may be absent
(`doc_data.get(...)`).  `α` stands for the opaque payload type of the
`Any`-typed fields. -/
structure RawDoc (α : Type) where
  DocType : Option Int
  IsAmended : Option Bool
  IsUpdated : Option Bool
  CompareStatus : Option Int
  DocOrderId : Option Int
  AmendedBy : Option (List α)
  Notes : Option (List α)
  Drafts : Option (List α)
  ChunkGroupStartingNodeId : Option (List Char)
  NodeDepth : Option Int
  TitleHtml : Option (List Char)
  Id : Option (List Char)
  Title : Option (List Char)
  Content : Option (List Char)
  SortDate : Option (List Char)
  Footnotes : Option α

/-- The `MunicodeDoc` dataclass. -/
structure MunicodeDoc (α : Type) where
  DocType : Int
  IsAmended : Bool
  IsUpdated : Bool
  CompareStatus : Int
  DocOrderId : Int
  AmendedBy : List α
  Notes : List α
  Drafts : List α
  ChunkGroupStartingNodeId : List Char
  NodeDepth : Int
  TitleHtml : List Char
  Id : List Char
  Title : List Char
  Content : List Char
  SortDate : Option (List Char)
  Footnotes : Option α

/-- The `MunicodeDoc(...)` construction in
`MunicodeClient.get_chapter_content`: each field is read with
`doc_data.get(key, default)` — integers default to `0`, booleans to
`False`, lists to `[]`, strings to `''`, and `SortDate`/`Footnotes` to
`None`. -/
def parseDoc {α : Type} (raw : RawDoc α) : MunicodeDoc α :=
  ⟨raw.DocType.getD 0, raw.IsAmended.getD false, raw.IsUpdated.getD false,
   raw.CompareStatus.getD 0, raw.DocOrderId.getD 0, raw.AmendedBy.getD [],
   raw.Notes.getD [], raw.Drafts.getD [], raw.ChunkGroupStartingNodeId.getD [],
   raw.NodeDepth.getD 0, raw.TitleHtml.getD [], raw.Id.getD [],
   raw.Title.getD [], raw.Content.getD [], raw.SortDate, raw.Footnotes⟩

/-- No two adjacent characters of the list are both the space
character. -/
def noTwoAdjSpaces : List Char → Bool
  | a :: b :: rest => !(a = ' ' && b = ' ') && noTwoAdjSpaces (b :: rest)
  | _ => true

/-- No two adjacent characters of the list are both Python
whitespace. -/
def noTwoAdjWs : List Char → Bool
  | a :: b :: rest => !(isPySpace a && isPySpace b) && noTwoAdjWs (b :: rest)
  | _ => true

/-- No `<` in the list is followed (anywhere later) by a `>`: on such a
list none of the tag patterns can match. -/
def noTagPair : List Char → Prop
  | [] => True
  | c :: rest => (c = '<' → '>' ∉ rest) ∧ noTagPair rest

/-! ## Basic lemmas about the list helpers -/

theorem leadsWith_decomp : ∀ {p l : List Char}, leadsWith p l = true →
    l = p ++ l.drop p.length := by
  intro p
  induction p with
  | nil => intro l _; simp
  | cons a ps ih =>
    intro l h
    cases l with
    | nil => simp [leadsWith] at h
    | cons c rest =>
      simp only [leadsWith, Bool.and_eq_true, decide_eq_true_eq] at h
      obtain ⟨rfl, h2⟩ := h
      simpa using ih h2

theorem leadsWith_mem {p l : List Char} {c : Char} (h : leadsWith p l = true)
    (hc : c ∈ p) : c ∈ l := by
  rw [leadsWith_decomp h]
  exact List.mem_append_left _ hc

theorem leadsWith_append_right : ∀ {p l : List Char}, leadsWith p l = true →
    ∀ b, leadsWith p (l ++ b) = true := by
  intro p
  induction p with
  | nil => intro l _ b; simp [leadsWith]
  | cons a ps ih =>
    intro l h b
    cases l with
    | nil => simp [leadsWith] at h
    | cons c rest =>
      simp only [leadsWith, Bool.and_eq_true, decide_eq_true_eq] at h ⊢
      exact ⟨h.1, ih h.2 b⟩

theorem hasSub_nil_pat : ∀ l : List Char, hasSub [] l = true := by
  intro l
  cases l with
  | nil => rfl
  | cons c rest => simp [hasSub, leadsWith]

theorem hasSub_cons {p rest : List Char} (c : Char) (h : hasSub p rest = true) :
    hasSub p (c :: rest) = true := by
  simp [hasSub, h]

theorem hasSub_of_leadsWith {p l : List Char} (h : leadsWith p l = true) :
    hasSub p l = true := by
  cases l with
  | nil =>
    cases p with
    | nil => rfl
    | cons a ps => simp [leadsWith] at h
  | cons c rest => simp [hasSub, h]

theorem hasSub_append_left : ∀ {a : List Char} (b : List Char) {p : List Char},
    hasSub p a = true → hasSub p (a ++ b) = true := by
  intro a
  induction a with
  | nil =>
    intro b p h
    simp only [hasSub, List.isEmpty_iff] at h
    subst h
    exact hasSub_nil_pat _
  | cons c rest ih =>
    intro b p h
    simp only [hasSub, Bool.or_eq_true] at h
    rcases h with h | h
    · exact hasSub_of_leadsWith (leadsWith_append_right h b)
    · exact hasSub_cons c (ih b h)

theorem hasSub_append_right : ∀ (a : List Char) {b p : List Char},
    hasSub p b = true → hasSub p (a ++ b) = true := by
  intro a
  induction a with
  | nil => intro b p h; simpa using h
  | cons c rest ih => intro b p h; exact hasSub_cons c (ih h)

theorem pySplit_no_sep {sep : Char} : ∀ {l : List Char}, sep ∉ l →
    pySplit sep l = [l] := by
  intro l
  induction l with
  | nil => intro _; rfl
  | cons c rest ih =>
    intro h
    simp only [List.mem_cons, not_or] at h
    rw [pySplit, ih h.2]
    simp [Ne.symm h.1]

theorem dropWhile_dW (p : Char → Bool) : ∀ l : List Char,
    (l.dropWhile p).dropWhile p = l.dropWhile p := by
  intro l
  induction l with
  | nil => rfl
  | cons c rest ih =>
    by_cases hp : p c
    · rw [List.dropWhile_cons_of_pos hp]; exact ih
    · rw [List.dropWhile_cons_of_neg hp, List.dropWhile_cons_of_neg hp]

theorem dropTrail_decomp (l : List Char) :
    l = dropTrail l ++ (l.reverse.takeWhile isPySpace).reverse := by
  have h := List.takeWhile_append_dropWhile isPySpace l.reverse
  calc l = l.reverse.reverse := (List.reverse_reverse l).symm
    _ = (l.reverse.takeWhile isPySpace ++ l.reverse.dropWhile isPySpace).reverse := by rw [h]
    _ = (l.reverse.dropWhile isPySpace).reverse ++ (l.reverse.takeWhile isPySpace).reverse :=
        List.reverse_append _ _
    _ = dropTrail l ++ (l.reverse.takeWhile isPySpace).reverse := rfl

theorem dropTrail_idem (l : List Char) : dropTrail (dropTrail l) = dropTrail l := by
  unfold dropTrail
  rw [List.reverse_reverse, dropWhile_dW]

theorem dropTrail_head {l : List Char} {c : Char} {r : List Char}
    (h : dropTrail l = c :: r) : ∃ r2, l = c :: r2 := by
  have hd := dropTrail_decomp l
  rw [h] at hd
  exact ⟨r ++ (l.reverse.takeWhile isPySpace).reverse, by simpa using hd⟩

theorem dropWhile_head_not (p : Char → Bool) : ∀ {l : List Char} {c : Char} {r : List Char},
    l.dropWhile p = c :: r → p c = false := by
  intro l
  induction l with
  | nil => intro c r h; simp at h
  | cons a rest ih =>
    intro c r h
    by_cases hp : p a
    · rw [List.dropWhile_cons_of_pos hp] at h
      exact ih h
    · rw [List.dropWhile_cons_of_neg hp] at h
      cases h
      simpa using hp

theorem pyStrip_idem (l : List Char) : pyStrip (pyStrip l) = pyStrip l := by
  unfold pyStrip
  have hA : (dropTrail (l.dropWhile isPySpace)).dropWhile isPySpace
      = dropTrail (l.dropWhile isPySpace) := by
    cases hd : dropTrail (l.dropWhile isPySpace) with
    | nil => rfl
    | cons c r =>
      obtain ⟨r2, hr2⟩ := dropTrail_head hd
      have hw : isPySpace c = false := dropWhile_head_not isPySpace hr2
      rw [List.dropWhile_cons_of_neg (by simp [hw])]
  rw [hA, dropTrail_idem]

theorem pyStrip_subset {c : Char} {l : List Char} (h : c ∈ pyStrip l) : c ∈ l := by
  unfold pyStrip dropTrail at h
  rw [List.mem_reverse] at h
  have h2 := List.dropWhile_subset isPySpace h
  rw [List.mem_reverse] at h2
  exact List.dropWhile_subset isPySpace h2

theorem noTagPair_append_right : ∀ (a : List Char) {b : List Char},
    noTagPair (a ++ b) → noTagPair b := by
  intro a
  induction a with
  | nil => intro b h; simpa using h
  | cons c rest ih => intro b h; exact ih h.2

theorem noTagPair_append_left : ∀ (a : List Char) {b : List Char},
    noTagPair (a ++ b) → noTagPair a := by
  intro a
  induction a with
  | nil => intro b _; trivial
  | cons c rest ih =>
    intro b h
    exact ⟨fun hc hm => h.1 hc (List.mem_append_left b hm), ih h.2⟩

theorem noTwoAdjWs_tail {c : Char} {rest : List Char}
    (h : noTwoAdjWs (c :: rest) = true) : noTwoAdjWs rest = true := by
  cases rest with
  | nil => rfl
  | cons d r =>
    simp only [noTwoAdjWs, Bool.and_eq_true] at h
    exact h.2

theorem noTwoAdjWs_append_right : ∀ (a : List Char) {b : List Char},
    noTwoAdjWs (a ++ b) = true → noTwoAdjWs b = true := by
  intro a
  induction a with
  | nil => intro b h; simpa using h
  | cons c rest ih => intro b h; exact ih (noTwoAdjWs_tail h)

theorem noTwoAdjWs_append_left : ∀ (a : List Char) {b : List Char},
    noTwoAdjWs (a ++ b) = true → noTwoAdjWs a = true := by
  intro a
  induction a with
  | nil => intro b _; rfl
  | cons c rest ih =>
    intro b h
    cases rest with
    | nil => rfl
    | cons d r =>
      simp only [List.cons_append, noTwoAdjWs, Bool.and_eq_true] at h ⊢
      exact ⟨h.1, ih h.2⟩

theorem noTwoAdjSpaces_of_ws : ∀ {l : List Char}, noTwoAdjWs l = true →
    noTwoAdjSpaces l = true := by
  intro l
  induction l with
  | nil => intro _; rfl
  | cons c rest ih =>
    intro h
    cases rest with
    | nil => rfl
    | cons d r =>
      simp only [noTwoAdjWs, noTwoAdjSpaces, Bool.and_eq_true] at h ⊢
      refine ⟨?_, ih h.2⟩
      have h1 := h.1
      by_cases hc : c = ' '
      · by_cases hd : d = ' '
        · exfalso
          rw [hc, hd] at h1
          simp [isPySpace] at h1
        · simp [hd]
      · simp [hc]

/-! ## Character-membership lemmas for the cleaning stages -/

theorem mem_subDivOpen {c : Char} : ∀ {l : List Char}, c ∈ subDivOpen l →
    c ∈ l ∨ c = '\n' := by
  intro l
  induction l using subDivOpen.induct with
  | case1 => intro h; simp [subDivOpen] at h
  | case2 c2 rest hcond hnil ih =>
    intro h
    rw [subDivOpen, if_pos hcond, if_pos hnil] at h
    rcases List.mem_cons.mp h with h | h
    · exact Or.inl (h ▸ List.mem_cons_self _ _)
    · rcases ih h with h | h
      · exact Or.inl (List.mem_cons_of_mem _ h)
      · exact Or.inr h
  | case3 c2 rest hcond hnil ih =>
    intro h
    rw [subDivOpen, if_pos hcond, if_neg hnil] at h
    rcases List.mem_cons.mp h with h | h
    · exact Or.inr h
    · rcases ih h with h | h
      · refine Or.inl (List.mem_cons_of_mem _ ?_)
        exact List.drop_subset 3 rest (List.dropWhile_subset _ (List.mem_of_mem_tail h))
      · exact Or.inr h
  | case4 c2 rest hcond ih =>
    intro h
    rw [subDivOpen, if_neg hcond] at h
    rcases List.mem_cons.mp h with h | h
    · exact Or.inl (h ▸ List.mem_cons_self _ _)
    · rcases ih h with h | h
      · exact Or.inl (List.mem_cons_of_mem _ h)
      · exact Or.inr h

theorem mem_replaceCloseDiv {c : Char} : ∀ {l : List Char}, c ∈ replaceCloseDiv l → c ∈ l := by
  intro l
  induction l using replaceCloseDiv.induct with
  | case1 rest ih =>
    intro h
    rw [replaceCloseDiv.eq_1] at h
    have := ih h
    simp [this]
  | case2 c2 rest hside ih =>
    intro h
    rw [replaceCloseDiv.eq_2 _ _ hside] at h
    rcases List.mem_cons.mp h with h | h
    · exact h ▸ List.mem_cons_self _ _
    · exact List.mem_cons_of_mem _ (ih h)
  | case3 => intro h; simp [replaceCloseDiv] at h

theorem mem_subBr {c : Char} : ∀ {l : List Char}, c ∈ subBr l → c ∈ l ∨ c = '\n' := by
  intro l
  induction l using subBr.induct with
  | case1 => intro h; simp [subBr] at h
  | case2 c2 rest hcond hb1 ih =>
    intro h
    rw [subBr, if_pos hcond, if_pos hb1] at h
    rcases List.mem_cons.mp h with h | h
    · exact Or.inr h
    · rcases ih h with h | h
      · refine Or.inl (List.mem_cons_of_mem _ ?_)
        exact List.drop_subset 2 rest
          (List.dropWhile_subset _ (List.drop_subset 1 _ h))
      · exact Or.inr h
  | case3 c2 rest hcond hb1 hb2 ih =>
    intro h
    rw [subBr, if_pos hcond, if_neg hb1, if_pos hb2] at h
    rcases List.mem_cons.mp h with h | h
    · exact Or.inr h
    · rcases ih h with h | h
      · refine Or.inl (List.mem_cons_of_mem _ ?_)
        exact List.drop_subset 2 rest
          (List.dropWhile_subset _ (List.drop_subset 2 _ h))
      · exact Or.inr h
  | case4 c2 rest hcond hb1 hb2 ih =>
    intro h
    rw [subBr, if_pos hcond, if_neg hb1, if_neg hb2] at h
    rcases List.mem_cons.mp h with h | h
    · exact Or.inl (h ▸ List.mem_cons_self _ _)
    · rcases ih h with h | h
      · exact Or.inl (List.mem_cons_of_mem _ h)
      · exact Or.inr h
  | case5 c2 rest hcond ih =>
    intro h
    rw [subBr, if_neg hcond] at h
    rcases List.mem_cons.mp h with h | h
    · exact Or.inl (h ▸ List.mem_cons_self _ _)
    · rcases ih h with h | h
      · exact Or.inl (List.mem_cons_of_mem _ h)
      · exact Or.inr h

theorem mem_stripTags {c : Char} : ∀ {l : List Char}, c ∈ stripTags l → c ∈ l := by
  intro l
  induction l using stripTags.induct with
  | case1 => intro h; simp [stripTags] at h
  | case2 rest hnil ih =>
    intro h
    rw [stripTags, if_pos rfl, if_pos hnil] at h
    rcases List.mem_cons.mp h with h | h
    · exact h ▸ List.mem_cons_self _ _
    · exact List.mem_cons_of_mem _ (ih h)
  | case3 rest hnil ih =>
    intro h
    rw [stripTags, if_pos rfl, if_neg hnil] at h
    exact List.mem_cons_of_mem _
      (List.dropWhile_subset _ (List.mem_of_mem_tail (ih h)))
  | case4 c2 rest hc ih =>
    intro h
    rw [stripTags, if_neg hc] at h
    rcases List.mem_cons.mp h with h | h
    · exact h ▸ List.mem_cons_self _ _
    · exact List.mem_cons_of_mem _ (ih h)

theorem mem_replaceNbsp {c : Char} : ∀ {l : List Char}, c ∈ replaceNbsp l →
    c ∈ l ∨ c = ' ' := by
  intro l
  induction l using replaceNbsp.induct with
  | case1 => intro h; simp [replaceNbsp] at h
  | case2 c2 rest hlead ih =>
    intro h
    rw [replaceNbsp, if_pos hlead] at h
    rcases List.mem_cons.mp h with h | h
    · exact Or.inr h
    · rcases ih h with h | h
      · exact Or.inl (List.drop_subset 6 _ h)
      · exact Or.inr h
  | case3 c2 rest hlead ih =>
    intro h
    rw [replaceNbsp, if_neg hlead] at h
    rcases List.mem_cons.mp h with h | h
    · exact Or.inl (h ▸ List.mem_cons_self _ _)
    · rcases ih h with h | h
      · exact Or.inl (List.mem_cons_of_mem _ h)
      · exact Or.inr h

theorem mem_quoteSub {c : Char} : ∀ {l : List Char}, c ∈ quoteSub l →
    c ∈ l ∨ c = '"' ∨ c = '\x01' := by
  intro l
  induction l using quoteSub.induct with
  | case1 d rest2 hup ih =>
    intro h
    rw [quoteSub.eq_1, if_pos hup] at h
    rcases List.mem_cons.mp h with h | h
    · exact Or.inr (Or.inl h)
    · rcases List.mem_cons.mp h with h | h
      · exact Or.inr (Or.inr h)
      · rcases List.mem_cons.mp h with h | h
        · exact Or.inr (Or.inl h)
        · rcases ih h with h | h
          · exact Or.inl (by simp [h])
          · exact Or.inr h
  | case2 d rest2 hup ih =>
    intro h
    rw [quoteSub.eq_1, if_neg hup] at h
    rcases List.mem_cons.mp h with h | h
    · exact Or.inl (by simp [h])
    · rcases ih h with h | h
      · exact Or.inl (by simpa using Or.inr h)
      · exact Or.inr h
  | case3 c2 rest hside ih =>
    intro h
    rw [quoteSub.eq_2 _ _ hside] at h
    rcases List.mem_cons.mp h with h | h
    · exact Or.inl (h ▸ List.mem_cons_self _ _)
    · rcases ih h with h | h
      · exact Or.inl (List.mem_cons_of_mem _ h)
      · exact Or.inr h
  | case4 => intro h; simp [quoteSub] at h

theorem mem_replaceEscN {c : Char} : ∀ {l : List Char}, c ∈ replaceEscN l →
    c ∈ l ∨ c = '\n' := by
  intro l
  induction l using replaceEscN.induct with
  | case1 rest ih =>
    intro h
    rw [replaceEscN.eq_1] at h
    rcases List.mem_cons.mp h with h | h
    · exact Or.inr h
    · rcases ih h with h | h
      · exact Or.inl (by simp [h])
      · exact Or.inr h
  | case2 c2 rest hside ih =>
    intro h
    rw [replaceEscN.eq_2 _ _ hside] at h
    rcases List.mem_cons.mp h with h | h
    · exact Or.inl (h ▸ List.mem_cons_self _ _)
    · rcases ih h with h | h
      · exact Or.inl (List.mem_cons_of_mem _ h)
      · exact Or.inr h
  | case3 => intro h; simp [replaceEscN] at h

theorem mem_replaceEscQ {c : Char} : ∀ {l : List Char}, c ∈ replaceEscQ l →
    c ∈ l ∨ c = '"' := by
  intro l
  induction l using replaceEscQ.induct with
  | case1 rest ih =>
    intro h
    rw [replaceEscQ.eq_1] at h
    rcases List.mem_cons.mp h with h | h
    · exact Or.inr h
    · rcases ih h with h | h
      · exact Or.inl (by simp [h])
      · exact Or.inr h
  | case2 c2 rest hside ih =>
    intro h
    rw [replaceEscQ.eq_2 _ _ hside] at h
    rcases List.mem_cons.mp h with h | h
    · exact Or.inl (h ▸ List.mem_cons_self _ _)
    · rcases ih h with h | h
      · exact Or.inl (List.mem_cons_of_mem _ h)
      · exact Or.inr h
  | case3 => intro h; simp [replaceEscQ] at h

theorem mem_collapseWsAux {c : Char} : ∀ {b : Bool} {l : List Char},
    c ∈ collapseWsAux b l → (c ∈ l ∧ isPySpace c = false) ∨ c = ' ' := by
  intro b l
  induction l generalizing b with
  | nil => intro h; simp [collapseWsAux] at h
  | cons c2 rest ih =>
    intro h
    by_cases hws : isPySpace c2
    · cases b with
      | true =>
        rw [collapseWsAux, if_pos hws, if_pos rfl] at h
        rcases ih h with h | h
        · exact Or.inl ⟨List.mem_cons_of_mem _ h.1, h.2⟩
        · exact Or.inr h
      | false =>
        rw [collapseWsAux, if_pos hws] at h
        simp only [Bool.false_eq_true, if_false] at h
        rcases List.mem_cons.mp h with h | h
        · exact Or.inr h
        · rcases ih h with h | h
          · exact Or.inl ⟨List.mem_cons_of_mem _ h.1, h.2⟩
          · exact Or.inr h
    · rw [collapseWsAux, if_neg hws] at h
      rcases List.mem_cons.mp h with h | h
      · subst h
        exact Or.inl ⟨List.mem_cons_self _ _, by simpa using hws⟩
      · rcases ih h with h | h
        · exact Or.inl ⟨List.mem_cons_of_mem _ h.1, h.2⟩
        · exact Or.inr h

theorem not_nl_collapseWsAux {b : Bool} {l : List Char} : '\n' ∉ collapseWsAux b l := by
  intro h
  rcases mem_collapseWsAux h with h | h
  · simp [isPySpace] at h
  · simp at h

/-! ## Identity of the cleaning stages on already-clean input -/

theorem dropWhile_ne_eq_nil {t : Char} : ∀ {l : List Char},
    l.dropWhile (fun d => d ≠ t) = [] ↔ t ∉ l := by
  intro l
  induction l with
  | nil => simp
  | cons c rest ih =>
    by_cases hc : c = t
    · subst hc
      rw [List.dropWhile_cons_of_neg (by simp)]
      simp
    · rw [List.dropWhile_cons_of_pos (by simp [hc])]
      simp only [List.mem_cons, not_or, ih]
      constructor
      · exact fun h => ⟨fun he => hc he.symm, h⟩
      · exact fun h => h.2

theorem noTagPair_of_no_lt : ∀ {l : List Char}, '<' ∉ l → noTagPair l := by
  intro l
  induction l with
  | nil => intro _; trivial
  | cons c rest ih =>
    intro h
    simp only [List.mem_cons, not_or] at h
    exact ⟨fun hc => absurd hc.symm h.1, ih h.2⟩

theorem subDivOpen_id : ∀ {l : List Char}, noTagPair l → subDivOpen l = l := by
  intro l
  induction l using subDivOpen.induct with
  | case1 => intro _; simp [subDivOpen]
  | case2 c2 rest hcond hnil ih =>
    intro h
    rw [subDivOpen, if_pos hcond, if_pos hnil, ih h.2]
  | case3 c2 rest hcond hnil ih =>
    intro h
    exfalso
    have hgt : '>' ∈ rest.drop 3 := by
      by_contra hmem
      exact hnil (dropWhile_ne_eq_nil.mpr hmem)
    exact h.1 hcond.1 (List.drop_subset 3 rest hgt)
  | case4 c2 rest hcond ih =>
    intro h
    rw [subDivOpen, if_neg hcond, ih h.2]

theorem replaceCloseDiv_id : ∀ {l : List Char}, noTagPair l → replaceCloseDiv l = l := by
  intro l
  induction l using replaceCloseDiv.induct with
  | case1 rest ih =>
    intro h
    exfalso
    exact h.1 rfl (by simp)
  | case2 c2 rest hside ih =>
    intro h
    rw [replaceCloseDiv.eq_2 _ _ hside, ih h.2]
  | case3 => intro _; rfl

theorem subBr_id : ∀ {l : List Char}, noTagPair l → subBr l = l := by
  intro l
  induction l using subBr.induct with
  | case1 => intro _; simp [subBr]
  | case2 c2 rest hcond hb1 ih =>
    intro h
    exfalso
    have hgt : '>' ∈ (rest.drop 2).dropWhile isPySpace :=
      leadsWith_mem hb1 (List.mem_singleton.mpr rfl)
    exact h.1 hcond.1 (List.drop_subset 2 rest (List.dropWhile_subset _ hgt))
  | case3 c2 rest hcond hb1 hb2 ih =>
    intro h
    exfalso
    have hgt : '>' ∈ (rest.drop 2).dropWhile isPySpace :=
      leadsWith_mem hb2 (by simp)
    exact h.1 hcond.1 (List.drop_subset 2 rest (List.dropWhile_subset _ hgt))
  | case4 c2 rest hcond hb1 hb2 ih =>
    intro h
    rw [subBr, if_pos hcond, if_neg hb1, if_neg hb2, ih h.2]
  | case5 c2 rest hcond ih =>
    intro h
    rw [subBr, if_neg hcond, ih h.2]

theorem stripTags_id : ∀ {l : List Char}, noTagPair l → stripTags l = l := by
  intro l
  induction l using stripTags.induct with
  | case1 => intro _; simp [stripTags]
  | case2 rest hnil ih =>
    intro h
    rw [stripTags, if_pos rfl, if_pos hnil, ih h.2]
  | case3 rest hnil ih =>
    intro h
    exfalso
    have hgt : '>' ∈ rest := by
      by_contra hmem
      exact hnil (dropWhile_ne_eq_nil.mpr hmem)
    exact h.1 rfl hgt
  | case4 c2 rest hc ih =>
    intro h
    rw [stripTags, if_neg hc, ih h.2]

theorem replaceNbsp_id : ∀ {l : List Char}, hasSub "&nbsp;".data l = false →
    replaceNbsp l = l := by
  intro l
  induction l using replaceNbsp.induct with
  | case1 => intro _; simp [replaceNbsp]
  | case2 c2 rest hlead ih =>
    intro h
    exfalso
    rw [hasSub, hlead] at h
    simp at h
  | case3 c2 rest hlead ih =>
    intro h
    rw [hasSub, Bool.or_eq_false_iff] at h
    rw [replaceNbsp, if_neg hlead, ih h.2]

theorem quoteSub_id : ∀ {l : List Char}, '\\' ∉ l → quoteSub l = l := by
  intro l
  induction l using quoteSub.induct with
  | case1 d rest2 hup ih => intro h; simp at h
  | case2 d rest2 hup ih => intro h; simp at h
  | case3 c2 rest hside ih =>
    intro h
    simp only [List.mem_cons, not_or] at h
    rw [quoteSub.eq_2 _ _ hside, ih h.2]
  | case4 => intro _; simp [quoteSub]

theorem replaceEscN_id : ∀ {l : List Char}, '\\' ∉ l → replaceEscN l = l := by
  intro l
  induction l using replaceEscN.induct with
  | case1 rest ih => intro h; simp at h
  | case2 c2 rest hside ih =>
    intro h
    simp only [List.mem_cons, not_or] at h
    rw [replaceEscN.eq_2 _ _ hside, ih h.2]
  | case3 => intro _; rfl

theorem replaceEscQ_id : ∀ {l : List Char}, '\\' ∉ l → replaceEscQ l = l := by
  intro l
  induction l using replaceEscQ.induct with
  | case1 rest ih => intro h; simp at h
  | case2 c2 rest hside ih =>
    intro h
    simp only [List.mem_cons, not_or] at h
    rw [replaceEscQ.eq_2 _ _ hside, ih h.2]
  | case3 => intro _; rfl

theorem collapseNl_id : ∀ {l : List Char}, '\n' ∉ l → collapseNl l = l := by
  intro l
  induction l using collapseNl.induct with
  | case1 => intro _; simp [collapseNl]
  | case2 c2 rest hcond ih =>
    intro h
    exfalso
    exact h (hcond.1 ▸ List.mem_cons_self _ _)
  | case3 c2 rest hcond ih =>
    intro h
    simp only [List.mem_cons, not_or] at h
    rw [collapseNl, if_neg hcond, ih h.2]

theorem collapseWsAux_true_eq {l : List Char}
    (h : ∀ d r, l = d :: r → isPySpace d = false) :
    collapseWsAux true l = collapseWsAux false l := by
  cases l with
  | nil => rfl
  | cons c rest =>
    have hc := h c rest rfl
    rw [collapseWsAux, collapseWsAux, if_neg (by simp [hc]), if_neg (by simp [hc])]

theorem collapseWs_id : ∀ {l : List Char}, (∀ c ∈ l, isPySpace c = true → c = ' ') →
    noTwoAdjWs l = true → collapseWsAux false l = l := by
  intro l
  induction l with
  | nil => intro _ _; rfl
  | cons c rest ih =>
    intro hch hadj
    by_cases hws : isPySpace c
    · have hsp : c = ' ' := hch c (List.mem_cons_self _ _) hws
      rw [collapseWsAux, if_pos hws]
      simp only [Bool.false_eq_true, if_false]
      have htail : collapseWsAux true rest = rest := by
        have heq : collapseWsAux true rest = collapseWsAux false rest := by
          refine collapseWsAux_true_eq ?_
          intro d r hdr
          subst hdr
          simp only [noTwoAdjWs, Bool.and_eq_true, Bool.not_eq_true'] at hadj
          rcases Bool.and_eq_false_iff.mp hadj.1 with h1 | h1
          · rw [hws] at h1; simp at h1
          · exact h1
        rw [heq]
        exact ih (fun d hd => hch d (List.mem_cons_of_mem _ hd)) (noTwoAdjWs_tail hadj)
      rw [htail, hsp]
    · rw [collapseWsAux, if_neg hws]
      rw [ih (fun d hd => hch d (List.mem_cons_of_mem _ hd)) (noTwoAdjWs_tail hadj)]

/-! ## Establishing the invariants of the pipeline output -/

theorem noTagPair_stripTags : ∀ (l : List Char), noTagPair (stripTags l) := by
  intro l
  induction l using stripTags.induct with
  | case1 => rw [show stripTags [] = [] from by simp [stripTags]]; trivial
  | case2 rest hnil ih =>
    rw [stripTags, if_pos rfl, if_pos hnil]
    refine ⟨fun _ hmem => ?_, ih⟩
    exact (dropWhile_ne_eq_nil.mp hnil) (mem_stripTags hmem)
  | case3 rest hnil ih =>
    rw [stripTags, if_pos rfl, if_neg hnil]
    exact ih
  | case4 c2 rest hc ih =>
    rw [stripTags, if_neg hc]
    exact ⟨fun hceq => absurd hceq hc, ih⟩

theorem noTagPair_replaceNbsp : ∀ {l : List Char}, noTagPair l →
    noTagPair (replaceNbsp l) := by
  intro l
  induction l using replaceNbsp.induct with
  | case1 => intro _; rw [show replaceNbsp [] = [] from by simp [replaceNbsp]]; trivial
  | case2 c2 rest hlead ih =>
    intro h
    rw [replaceNbsp, if_pos hlead]
    refine ⟨fun hsp => absurd hsp (by decide), ?_⟩
    refine ih ?_
    have hdec := List.take_append_drop 6 (c2 :: rest)
    exact noTagPair_append_right _ (hdec ▸ h)
  | case3 c2 rest hlead ih =>
    intro h
    rw [replaceNbsp, if_neg hlead]
    refine ⟨fun hc hmem => ?_, ih h.2⟩
    rcases mem_replaceNbsp hmem with hm | hm
    · exact h.1 hc hm
    · exact absurd hm (by decide)

theorem noTagPair_collapseWsAux : ∀ {l : List Char} {b : Bool}, noTagPair l →
    noTagPair (collapseWsAux b l) := by
  intro l
  induction l with
  | nil => intro b _; rw [collapseWsAux]; trivial
  | cons c rest ih =>
    intro b h
    by_cases hws : isPySpace c
    · cases b with
      | true =>
        rw [collapseWsAux, if_pos hws, if_pos rfl]
        exact ih h.2
      | false =>
        rw [collapseWsAux, if_pos hws]
        simp only [Bool.false_eq_true, if_false]
        exact ⟨fun hsp => absurd hsp (by decide), ih h.2⟩
    · rw [collapseWsAux, if_neg hws]
      refine ⟨fun hc hmem => ?_, ih h.2⟩
      rcases mem_collapseWsAux hmem with hm | hm
      · exact h.1 hc hm.1
      · exact absurd hm (by decide)

theorem noTagPair_pyStrip {l : List Char} (h : noTagPair l) : noTagPair (pyStrip l) := by
  have h1 : noTagPair (l.dropWhile isPySpace) := by
    have hdec := List.takeWhile_append_dropWhile isPySpace l
    exact noTagPair_append_right _ (hdec ▸ h)
  have hdec2 := dropTrail_decomp (l.dropWhile isPySpace)
  exact noTagPair_append_left _ (hdec2 ▸ h1)

theorem cw_head_not_ws : ∀ {l : List Char} {d : Char} {r : List Char},
    collapseWsAux true l = d :: r → isPySpace d = false := by
  intro l
  induction l with
  | nil => intro d r h; simp [collapseWsAux] at h
  | cons c rest ih =>
    intro d r h
    by_cases hws : isPySpace c
    · rw [collapseWsAux, if_pos hws, if_pos rfl] at h
      exact ih h
    · rw [collapseWsAux, if_neg hws] at h
      cases h
      simpa using hws

theorem noTwoAdjWs_collapseWsAux : ∀ (l : List Char) (b : Bool),
    noTwoAdjWs (collapseWsAux b l) = true := by
  intro l
  induction l with
  | nil => intro b; rw [collapseWsAux]; rfl
  | cons c rest ih =>
    intro b
    by_cases hws : isPySpace c
    · cases b with
      | true =>
        rw [collapseWsAux, if_pos hws, if_pos rfl]
        exact ih true
      | false =>
        rw [collapseWsAux, if_pos hws]
        simp only [Bool.false_eq_true, if_false]
        cases hX : collapseWsAux true rest with
        | nil => rfl
        | cons d r =>
          have hd := cw_head_not_ws hX
          have := ih true
          rw [hX] at this
          simp only [noTwoAdjWs, Bool.and_eq_true]
          exact ⟨by simp [hd], this⟩
    · rw [collapseWsAux, if_neg hws]
      cases hX : collapseWsAux false rest with
      | nil => rfl
      | cons d r =>
        have := ih false
        rw [hX] at this
        simp only [noTwoAdjWs, Bool.and_eq_true]
        refine ⟨by simp [hws], this⟩

theorem noTwoAdjWs_pyStrip {l : List Char} (h : noTwoAdjWs l = true) :
    noTwoAdjWs (pyStrip l) = true := by
  have h1 : noTwoAdjWs (l.dropWhile isPySpace) = true := by
    have hdec := List.takeWhile_append_dropWhile isPySpace l
    exact noTwoAdjWs_append_right _ (hdec ▸ h)
  have hdec2 := dropTrail_decomp (l.dropWhile isPySpace)
  exact noTwoAdjWs_append_left _ (hdec2 ▸ h1)

theorem leadsWith_replaceNbsp : ∀ (l : List Char) (p : List Char), ' ' ∉ p →
    leadsWith p (replaceNbsp l) = true → leadsWith p l = true := by
  intro l
  induction l using replaceNbsp.induct with
  | case1 =>
    intro p hp h
    rw [show replaceNbsp [] = [] from by simp [replaceNbsp]] at h
    exact h
  | case2 c2 rest hlead ih =>
    intro p hp h
    rw [replaceNbsp, if_pos hlead] at h
    cases p with
    | nil => rfl
    | cons d ps =>
      simp only [leadsWith, Bool.and_eq_true, decide_eq_true_eq] at h
      exact absurd (h.1 ▸ List.mem_cons_self _ _) hp
  | case3 c2 rest hlead ih =>
    intro p hp h
    rw [replaceNbsp, if_neg hlead] at h
    cases p with
    | nil => rfl
    | cons d ps =>
      simp only [leadsWith, Bool.and_eq_true, decide_eq_true_eq] at h ⊢
      refine ⟨h.1, ih ps (fun hm => hp (List.mem_cons_of_mem _ hm)) h.2⟩

theorem hasSub_nbsp_replaceNbsp : ∀ (l : List Char),
    hasSub "&nbsp;".data (replaceNbsp l) = false := by
  intro l
  induction l using replaceNbsp.induct with
  | case1 => rw [show replaceNbsp [] = [] from by simp [replaceNbsp]]; rfl
  | case2 c2 rest hlead ih =>
    rw [replaceNbsp, if_pos hlead, hasSub, Bool.or_eq_false_iff]
    exact ⟨by simp [leadsWith], ih⟩
  | case3 c2 rest hlead ih =>
    rw [replaceNbsp, if_neg hlead, hasSub, Bool.or_eq_false_iff]
    refine ⟨?_, ih⟩
    by_contra hne
    rw [Bool.not_eq_false] at hne
    have hdata : "&nbsp;".data = '&' :: "nbsp;".data := rfl
    rw [hdata] at hne
    simp only [leadsWith, Bool.and_eq_true, decide_eq_true_eq] at hne
    have h2 : leadsWith "nbsp;".data rest = true :=
      leadsWith_replaceNbsp rest _ (by decide) hne.2
    apply hlead
    rw [hdata]
    simp only [leadsWith, Bool.and_eq_true, decide_eq_true_eq]
    exact ⟨hne.1, h2⟩

theorem leadsWith_collapseWsAux : ∀ (l : List Char) (b : Bool) (p : List Char),
    (∀ d ∈ p, isPySpace d = false) → leadsWith p (collapseWsAux b l) = true →
    leadsWith p (l.dropWhile isPySpace) = true := by
  intro l
  induction l with
  | nil =>
    intro b p hp h
    rw [collapseWsAux] at h
    simpa using h
  | cons c rest ih =>
    intro b p hp h
    by_cases hws : isPySpace c
    · rw [List.dropWhile_cons_of_pos hws]
      cases b with
      | true =>
        rw [collapseWsAux, if_pos hws, if_pos rfl] at h
        exact ih true p hp h
      | false =>
        rw [collapseWsAux, if_pos hws] at h
        simp only [Bool.false_eq_true, if_false] at h
        cases p with
        | nil => simp [leadsWith]
        | cons d ps =>
          simp only [leadsWith, Bool.and_eq_true, decide_eq_true_eq] at h
          have := hp d (List.mem_cons_self _ _)
          rw [h.1] at this
          simp [isPySpace] at this
    · rw [List.dropWhile_cons_of_neg hws]
      rw [collapseWsAux, if_neg hws] at h
      cases p with
      | nil => rfl
      | cons d ps =>
        simp only [leadsWith, Bool.and_eq_true, decide_eq_true_eq] at h ⊢
        refine ⟨h.1, ?_⟩
        have hps := ih false ps (fun e he => hp e (List.mem_cons_of_mem _ he)) h.2
        cases rest with
        | nil =>
          rw [collapseWsAux] at h
          have := h.2
          cases ps with
          | nil => rfl
          | cons e ps2 => simp [leadsWith] at this
        | cons e r2 =>
          by_cases hwe : isPySpace e
          · rw [collapseWsAux, if_pos hwe] at h
            simp only [Bool.false_eq_true, if_false] at h
            cases ps with
            | nil => rfl
            | cons f ps2 =>
              simp only [leadsWith, Bool.and_eq_true, decide_eq_true_eq] at h
              have := hp f (List.mem_cons_of_mem _ (List.mem_cons_self _ _))
              rw [h.2.1] at this
              simp [isPySpace] at this
          · rw [List.dropWhile_cons_of_neg hwe] at hps
            exact hps

theorem hasSub_collapseWsAux : ∀ (l : List Char) (b : Bool) (p : List Char),
    p ≠ [] → (∀ d ∈ p, isPySpace d = false) →
    hasSub p (collapseWsAux b l) = true → hasSub p l = true := by
  intro l
  induction l with
  | nil =>
    intro b p hne hp h
    rw [collapseWsAux] at h
    rw [hasSub] at h
    simp only [List.isEmpty_iff] at h
    exact absurd h hne
  | cons c rest ih =>
    intro b p hne hp h
    by_cases hws : isPySpace c
    · cases b with
      | true =>
        rw [collapseWsAux, if_pos hws, if_pos rfl] at h
        exact hasSub_cons c (ih true p hne hp h)
      | false =>
        rw [collapseWsAux, if_pos hws] at h
        simp only [Bool.false_eq_true, if_false] at h
        rw [hasSub, Bool.or_eq_true] at h
        rcases h with h | h
        · cases p with
          | nil => exact absurd rfl hne
          | cons d ps =>
            simp only [leadsWith, Bool.and_eq_true, decide_eq_true_eq] at h
            have := hp d (List.mem_cons_self _ _)
            rw [h.1] at this
            simp [isPySpace] at this
        · exact hasSub_cons c (ih true p hne hp h)
    · rw [collapseWsAux, if_neg hws] at h
      rw [hasSub, Bool.or_eq_true] at h
      rcases h with h | h
      · cases p with
        | nil => exact absurd rfl hne
        | cons d ps =>
          simp only [leadsWith, Bool.and_eq_true, decide_eq_true_eq] at h
          have hpsrest : leadsWith ps rest = true := by
            cases ps with
            | nil => rfl
            | cons f ps2 =>
              have hps := leadsWith_collapseWsAux rest false (f :: ps2)
                (fun e he => hp e (List.mem_cons_of_mem _ he)) h.2
              cases rest with
              | nil =>
                rw [collapseWsAux] at h
                simp [leadsWith] at h
              | cons e r2 =>
                by_cases hwe : isPySpace e
                · exfalso
                  rw [collapseWsAux, if_pos hwe] at h
                  simp only [Bool.false_eq_true, if_false] at h
                  have h21 := h.2
                  simp only [leadsWith, Bool.and_eq_true, decide_eq_true_eq] at h21
                  have hf := hp f (List.mem_cons_of_mem _ (List.mem_cons_self _ _))
                  rw [h21.1] at hf
                  simp [isPySpace] at hf
                · rw [List.dropWhile_cons_of_neg hwe] at hps
                  exact hps
          have hl : leadsWith (d :: ps) (c :: rest) = true := by
            simp only [leadsWith, Bool.and_eq_true, decide_eq_true_eq]
            exact ⟨h.1, hpsrest⟩
          rw [hasSub, hl]
          simp
      · exact hasSub_cons c (ih false p hne hp h)

theorem hasSub_pyStrip {p l : List Char} (h : hasSub p (pyStrip l) = true) :
    hasSub p l = true := by
  have h1 : hasSub p (l.dropWhile isPySpace) = true := by
    have hdec := dropTrail_decomp (l.dropWhile isPySpace)
    rw [hdec]
    exact hasSub_append_left _ h
  have hdec2 := (List.takeWhile_append_dropWhile isPySpace l).symm
  rw [hdec2]
  exact hasSub_append_right _ h1

/-- The whole pipeline after the escape stages: since
`re.sub(r'\s+', ' ')` leaves no newline at all, the newline-collapsing
step, the split on newlines, the per-line strip and the rejoin
simplify: the cleaned result is exactly the whitespace-collapsed string
stripped at both ends. -/
theorem cleanCore_eq (s : List Char) :
    cleanCore s = pyStrip (collapseWs (preWsStage s)) := by
  have hnl : '\n' ∉ collapseWs (preWsStage s) := not_nl_collapseWsAux
  show pyStrip (pyJoin ['\n'] (List.filter (fun line => decide (line ≠ []))
    (List.map pyStrip (pySplit '\n' (collapseNl (collapseWs (preWsStage s))))))) = _
  rw [collapseNl_id hnl, pySplit_no_sep hnl]
  simp only [List.map]
  by_cases he : pyStrip (collapseWs (preWsStage s)) = []
  · rw [he]
    simp [pyJoin, pyStrip, dropTrail]
  · rw [List.filter_cons_of_pos (by simpa using he)]
    rw [List.filter_nil]
    show pyStrip (pyJoin ['\n'] [pyStrip (collapseWs (preWsStage s))]) = _
    rw [show ∀ x : List Char, pyJoin ['\n'] [x] = x from fun x => rfl]
    exact pyStrip_idem _

theorem cleanCore_no_nl (s : List Char) : '\n' ∉ cleanCore s := by
  rw [cleanCore_eq]
  intro h
  exact not_nl_collapseWsAux (pyStrip_subset h)

theorem cleanCore_noTwoAdjWs (s : List Char) : noTwoAdjWs (cleanCore s) = true := by
  rw [cleanCore_eq]
  exact noTwoAdjWs_pyStrip (noTwoAdjWs_collapseWsAux _ _)

theorem cleanCore_stripped (s : List Char) : pyStrip (cleanCore s) = cleanCore s := by
  rw [cleanCore_eq]
  exact pyStrip_idem _

theorem cleanCore_ws_space (s : List Char) :
    ∀ c ∈ cleanCore s, isPySpace c = true → c = ' ' := by
  rw [cleanCore_eq]
  intro c hc hw
  rcases mem_collapseWsAux (pyStrip_subset hc) with hm | hm
  · rw [hw] at hm; simp at hm
  · exact hm

/-- Without backslashes in the input, the two quote regexes and the two
escape replacements do nothing, because no stage before them can
introduce a backslash. -/
theorem no_bs_chain {s : List Char} (h : '\\' ∉ s) :
    '\\' ∉ replaceNbsp (stripTags (subBr (replaceCloseDiv (subDivOpen s)))) := by
  intro hmem
  rcases mem_replaceNbsp hmem with hm | hm
  swap
  · simp at hm
  have hm2 := mem_stripTags hm
  rcases mem_subBr hm2 with hm3 | hm3
  swap
  · simp at hm3
  have hm4 := mem_replaceCloseDiv hm3
  rcases mem_subDivOpen hm4 with hm5 | hm5
  · exact h hm5
  · simp at hm5

theorem preWs_eq_no_bs {s : List Char} (h : '\\' ∉ s) :
    preWsStage s = replaceNbsp (stripTags (subBr (replaceCloseDiv (subDivOpen s)))) := by
  unfold preWsStage
  rw [quoteSub_id (no_bs_chain h), quoteSub_id (no_bs_chain h),
    replaceEscN_id (no_bs_chain h), replaceEscQ_id (no_bs_chain h)]

theorem cleanCore_noTagPair {s : List Char} (h : '\\' ∉ s) :
    noTagPair (cleanCore s) := by
  rw [cleanCore_eq, preWs_eq_no_bs h]
  exact noTagPair_pyStrip (noTagPair_collapseWsAux
    (noTagPair_replaceNbsp (noTagPair_stripTags _)))

theorem cleanCore_no_nbsp {s : List Char} (h : '\\' ∉ s) :
    hasSub "&nbsp;".data (cleanCore s) = false := by
  rw [cleanCore_eq, preWs_eq_no_bs h]
  by_contra hne
  rw [Bool.not_eq_false] at hne
  have h1 := hasSub_pyStrip hne
  have h2 := hasSub_collapseWsAux _ false _ (by decide) (by decide) h1
  rw [hasSub_nbsp_replaceNbsp] at h2
  exact Bool.false_ne_true h2

theorem cleanCore_no_bs {s : List Char} (h : '\\' ∉ s) : '\\' ∉ cleanCore s := by
  rw [cleanCore_eq, preWs_eq_no_bs h]
  intro hmem
  rcases mem_collapseWsAux (pyStrip_subset hmem) with hm | hm
  · exact no_bs_chain h hm.1
  · simp at hm

/-- A string that is already in cleaned form — no tag patterns, no
`&nbsp;`, no backslash, whitespace collapsed to single interior spaces,
stripped at both ends — is a fixed point of the pipeline. -/
theorem cleanCore_fixed {o : List Char} (hnt : noTagPair o)
    (hnb : hasSub "&nbsp;".data o = false) (hbs : '\\' ∉ o)
    (hsp : ∀ c ∈ o, isPySpace c = true → c = ' ') (hadj : noTwoAdjWs o = true)
    (hnl : '\n' ∉ o) (hst : pyStrip o = o) : cleanCore o = o := by
  have hpre : preWsStage o = o := by
    unfold preWsStage
    rw [subDivOpen_id hnt, replaceCloseDiv_id hnt, subBr_id hnt, stripTags_id hnt,
      replaceNbsp_id hnb, quoteSub_id hbs, quoteSub_id hbs, replaceEscN_id hbs,
      replaceEscQ_id hbs]
  show pyStrip (pyJoin ['\n'] (List.filter (fun line => decide (line ≠ []))
    (List.map pyStrip (pySplit '\n' (collapseNl (collapseWs (preWsStage o))))))) = _
  rw [hpre, show collapseWs o = o from collapseWs_id hsp hadj, collapseNl_id hnl,
    pySplit_no_sep hnl]
  simp only [List.map, hst]
  cases ho : o with
  | nil => simp [pyJoin, pyStrip, dropTrail]
  | cons c r =>
    rw [List.filter_cons_of_pos (by simp), List.filter_nil]
    show pyStrip (pyJoin ['\n'] [c :: r]) = c :: r
    rw [show ∀ x : List Char, pyJoin ['\n'] [x] = x from fun x => rfl, ← ho, hst]

theorem hasSub_nbsp_no_amp : ∀ {l : List Char}, '&' ∉ l →
    hasSub "&nbsp;".data l = false := by
  intro l
  induction l with
  | nil => intro _; rfl
  | cons c rest ih =>
    intro h
    simp only [List.mem_cons, not_or] at h
    rw [hasSub, Bool.or_eq_false_iff]
    refine ⟨?_, ih h.2⟩
    rw [show "&nbsp;".data = '&' :: "nbsp;".data from rfl]
    simp only [leadsWith, Bool.and_eq_false_iff]
    left
    simpa using fun he => h.1 he

theorem collapseWsAux_all_ws_true : ∀ {l : List Char}, (∀ c ∈ l, isPySpace c = true) →
    collapseWsAux true l = [] := by
  intro l
  induction l with
  | nil => intro _; rfl
  | cons c rest ih =>
    intro h
    rw [collapseWsAux, if_pos (h c (List.mem_cons_self _ _)), if_pos rfl]
    exact ih (fun d hd => h d (List.mem_cons_of_mem _ hd))

theorem collapseWs_all_ws {c0 : Char} {rest : List Char}
    (h : ∀ c ∈ c0 :: rest, isPySpace c = true) :
    collapseWsAux false (c0 :: rest) = [' '] := by
  rw [collapseWsAux, if_pos (h c0 (List.mem_cons_self _ _))]
  simp only [Bool.false_eq_true, if_false]
  rw [collapseWsAux_all_ws_true (fun d hd => h d (List.mem_cons_of_mem _ hd))]

/-! ## Lemmas about the chapter loop -/

theorem loopBody_ok_cases {fail : List Char → Bool} {p : List (List Char)}
    {n : ListingNode} {p2 : List (List Char)} {att : Option (List Char)}
    (h : loopBody fail p n = .ok (p2, att)) :
    (p2 = p ∧ att = none) ∨
    (fail (chapterKey (nodeId n)) = false ∧ chapterKey (nodeId n) ∉ p ∧
      p2 = p ++ [chapterKey (nodeId n)] ∧ att = some (chapterKey (nodeId n))) := by
  unfold loopBody at h
  by_cases h1 : nodeId n = []
  · rw [if_pos h1] at h
    simp only [Except.ok.injEq, Prod.mk.injEq] at h
    exact Or.inl ⟨h.1.symm, h.2.symm⟩
  · rw [if_neg h1] at h
    by_cases h2 : chapterKey (nodeId n) ∈ p
    · rw [if_pos h2] at h
      simp only [Except.ok.injEq, Prod.mk.injEq] at h
      exact Or.inl ⟨h.1.symm, h.2.symm⟩
    · rw [if_neg h2] at h
      by_cases h3 : 2 < numSegments (nodeId n)
      · rw [if_pos h3] at h
        simp only [Except.ok.injEq, Prod.mk.injEq] at h
        exact Or.inl ⟨h.1.symm, h.2.symm⟩
      · rw [if_neg h3] at h
        by_cases h4 : fail (chapterKey (nodeId n))
        · rw [if_pos h4] at h
          simp at h
        · rw [if_neg h4] at h
          simp only [Except.ok.injEq, Prod.mk.injEq] at h
          exact Or.inr ⟨by simpa using h4, h2, h.1.symm, h.2.symm⟩

theorem runLoop_not_mem_of_fail {fail : List Char → Bool} {K : List Char}
    (hK : fail K = true) : ∀ (nodes : List ListingNode) (p : List (List Char)),
    K ∉ p → K ∉ (runLoop fail nodes p).1 := by
  intro nodes
  induction nodes with
  | nil => intro p hp; simpa [runLoop] using hp
  | cons n rest ih =>
    intro p hp
    rw [runLoop]
    cases hb : loopBody fail p n with
    | ok pr =>
      obtain ⟨p2, att⟩ := pr
      rcases loopBody_ok_cases hb with ⟨rfl, -⟩ | ⟨hf, -, rfl, -⟩
      · exact ih _ hp
      · refine ih _ (fun hmem => ?_)
        rcases List.mem_append.mp hmem with hm | hm
        · exact hp hm
        · rw [List.mem_singleton.mp hm] at hK
          rw [hf] at hK
          exact Bool.false_ne_true hK
    | error k => exact ih p hp

theorem runLoop_append (fail : List Char → Bool) :
    ∀ (l1 l2 : List ListingNode) (p : List (List Char)),
    runLoop fail (l1 ++ l2) p =
      ((runLoop fail l2 (runLoop fail l1 p).1).1,
       (runLoop fail l1 p).2 ++ (runLoop fail l2 (runLoop fail l1 p).1).2) := by
  intro l1
  induction l1 with
  | nil => intro l2 p; simp [runLoop]
  | cons n rest ih =>
    intro l2 p
    rw [List.cons_append, runLoop, runLoop]
    cases hb : loopBody fail p n with
    | ok pr =>
      obtain ⟨p2, att⟩ := pr
      simp only [ih l2 p2, List.append_assoc]
    | error k =>
      simp only [ih l2 p, List.append_assoc, List.cons_append]

theorem runLoop_cons_failkey {fail : List Char → Bool} {K : List Char}
    (hK : fail K = true) {n : ListingNode} (hkey : chapterKey (nodeId n) = K)
    (post : List ListingNode) (p : List (List Char)) :
    (runLoop fail (n :: post) p).1 = (runLoop fail post p).1 ∧
    (runLoop fail post p).2.Sublist (runLoop fail (n :: post) p).2 := by
  rw [runLoop]
  cases hb : loopBody fail p n with
  | ok pr =>
    obtain ⟨p2, att⟩ := pr
    rcases loopBody_ok_cases hb with ⟨rfl, rfl⟩ | ⟨hf, -, -, -⟩
    · exact ⟨rfl, by simp⟩
    · rw [hkey, hK] at hf
      simp at hf
  | error k =>
    exact ⟨rfl, by simp⟩

theorem runLoop_spec : ∀ (nodes : List ListingNode) (p q : List (List Char)),
    (∀ x, x ∈ p ↔ x ∈ q) →
    (runLoop (fun _ => false) nodes p).1 = p ++ specDedupGo q (nodes.map nodeId) := by
  intro nodes
  induction nodes with
  | nil => intro p q _; simp [runLoop, specDedupGo]
  | cons n rest ih =>
    intro p q hpq
    rw [runLoop, List.map_cons, specDedupGo]
    by_cases h1 : nodeId n = []
    · rw [if_pos h1]
      rw [show loopBody (fun _ => false) p n = .ok (p, none) from by
        unfold loopBody; rw [if_pos h1]]
      exact ih p q hpq
    · rw [if_neg h1]
      by_cases h2 : chapterKey (nodeId n) ∈ p
      · rw [show loopBody (fun _ => false) p n = .ok (p, none) from by
          unfold loopBody; rw [if_neg h1, if_pos h2]]
        have h2q : chapterKey (nodeId n) ∈ q := (hpq _).mp h2
        by_cases h3 : 2 < numSegments (nodeId n)
        · rw [if_pos (show 2 < (pySplit '_' (nodeId n)).length from h3)]
          exact ih p q hpq
        · rw [if_neg (show ¬2 < (pySplit '_' (nodeId n)).length from h3), if_pos h2q]
          exact ih p q hpq
      · by_cases h3 : 2 < numSegments (nodeId n)
        · rw [show loopBody (fun _ => false) p n = .ok (p, none) from by
            unfold loopBody; rw [if_neg h1, if_neg h2, if_pos h3]]
          rw [if_pos (show 2 < (pySplit '_' (nodeId n)).length from h3)]
          exact ih p q hpq
        · rw [show loopBody (fun _ => false) p n
              = .ok (p ++ [chapterKey (nodeId n)], some (chapterKey (nodeId n))) from by
            unfold loopBody; rw [if_neg h1, if_neg h2, if_neg h3, if_neg (by simp)]]
          rw [if_neg (show ¬2 < (pySplit '_' (nodeId n)).length from h3)]
          rw [if_neg (fun hq => h2 ((hpq _).mpr hq))]
          have hiq : ∀ x, x ∈ p ++ [chapterKey (nodeId n)] ↔
              x ∈ chapterKey (nodeId n) :: q := by
            intro x
            simp only [List.mem_append, List.mem_singleton, List.mem_cons, hpq x]
            tauto
          rw [ih (p ++ [chapterKey (nodeId n)]) (chapterKey (nodeId n) :: q) hiq]
          simp

theorem runLoop_cons_skip {fail : List Char → Bool} {n : ListingNode}
    (hn : nodeId n = []) (post : List ListingNode) (p : List (List Char)) :
    runLoop fail (n :: post) p = runLoop fail post p := by
  rw [runLoop, show loopBody fail p n = .ok (p, none) from by unfold loopBody; rw [if_pos hn]]
  simp

/-! ## The claims -/

/-- C1: the chapter-deduplication loop emits chapter keys (the first two
underscore-delimited segments of each node's id) in first-seen input
order, skipping nodes with empty id, skipping nodes whose id has more
than two underscore-delimited segments, and skipping keys already
emitted; on the spec's example listing the emitted keys are exactly
`TIT1_CH1`, `TIT1_CH2` in that order. -/
theorem dedup_emits_unique_chapter_keys :
    (∀ chapters : List ListingNode,
      dedupeChapters chapters = specDedup (chapters.map nodeId)) ∧
    dedupeChapters [⟨some "TIT1_CH1".data⟩, ⟨some "TIT1_CH1_SUBA".data⟩,
      ⟨some "TIT1_CH1_SUBA_ART1".data⟩, ⟨some "TIT1_CH2".data⟩, ⟨some "TIT1_CH1".data⟩]
      = ["TIT1_CH1".data, "TIT1_CH2".data] := by
  constructor
  · intro chapters
    unfold dedupeChapters fetch_all_austin_chapters specDedup
    simpa using runLoop_spec chapters [] [] (by simp)
  · decide

/-- C2: the claimed output of `clean("<div>A</div><br>B")` is `"A\nB"`,
but the code returns `"A B"`: the whitespace-collapsing regex `\s+`
also matches newlines, so the newline produced from the tags is turned
into a space — contradicting the function's own docstring
("Cleaned text content with preserved line breaks") and its comment
("Remove HTML tags but keep line breaks"). -/
theorem clean_div_br_example_loses_newline :
    get_clean_content (some "<div>A</div><br>B".data) = "A B".data := by
  simp [get_clean_content, cleanCore, preWsStage, subDivOpen, replaceCloseDiv, subBr,
    stripTags, replaceNbsp, quoteSub, replaceEscN, replaceEscQ, collapseWs, collapseWsAux,
    collapseNl, pySplit, pyJoin, pyStrip, dropTrail, leadsWith, isPySpace, isUpper]

/-- C3: the claimed output of the cleaner on `Value \"P\" here` is
`Value "P" here`, but the code returns `Value "␁" here` (U+0001 in
place of the letter): the replacement string `'"\1"'` of the quote
regexes is not a raw string, so `\1` is the octal escape for U+0001
rather than a backreference, contradicting the code's own comment
`Convert \"P\" to "P"`. -/
theorem clean_escaped_quote_letter_lost :
    get_clean_content (some "Value \\\"P\\\" here".data) = "Value \"\x01\" here".data := by
  simp [get_clean_content, cleanCore, preWsStage, subDivOpen, replaceCloseDiv, subBr,
    stripTags, replaceNbsp, quoteSub, replaceEscN, replaceEscQ, collapseWs, collapseWsAux,
    collapseNl, pySplit, pyJoin, pyStrip, dropTrail, leadsWith, isPySpace, isUpper]

/-- C4 counterexample: the cleaner is not idempotent.  On the
three-character input backslash-backslash-quote, one pass yields
backslash-quote (the `replace('\\"', '"')` step consumes the second
backslash and the quote), and a second pass yields just a quote. -/
theorem clean_not_idempotent_on_backslashes :
    get_clean_content (some (get_clean_content (some "\\\\\"".data))) ≠
    get_clean_content (some "\\\\\"".data) := by
  have h1 : get_clean_content (some "\\\\\"".data) = "\\\"".data := by
    simp [get_clean_content, cleanCore, preWsStage, subDivOpen, replaceCloseDiv, subBr,
      stripTags, replaceNbsp, quoteSub, replaceEscN, replaceEscQ, collapseWs, collapseWsAux,
      collapseNl, pySplit, pyJoin, pyStrip, dropTrail, leadsWith, isPySpace, isUpper]
  have h2 : get_clean_content (some "\\\"".data) = "\"".data := by
    simp [get_clean_content, cleanCore, preWsStage, subDivOpen, replaceCloseDiv, subBr,
      stripTags, replaceNbsp, quoteSub, replaceEscN, replaceEscQ, collapseWs, collapseWsAux,
      collapseNl, pySplit, pyJoin, pyStrip, dropTrail, leadsWith, isPySpace, isUpper]
  rw [h1, h2]
  decide

/-- C4 amended: the cleaner is idempotent on every input that contains
no backslash character.  (The escape-collapsing replacements are the
only non-idempotent stages; no stage ever introduces a backslash.) -/
theorem clean_idempotent_no_backslash (s : List Char) (h : '\\' ∉ s) :
    get_clean_content (some (get_clean_content (some s))) = get_clean_content (some s) := by
  cases s with
  | nil => rfl
  | cons c0 r0 =>
    show get_clean_content (some (cleanCore (c0 :: r0))) = cleanCore (c0 :: r0)
    cases ho : cleanCore (c0 :: r0) with
    | nil => rfl
    | cons oc orest =>
      show cleanCore (oc :: orest) = oc :: orest
      rw [← ho]
      exact cleanCore_fixed (cleanCore_noTagPair h) (cleanCore_no_nbsp h)
        (cleanCore_no_bs h) (cleanCore_ws_space _) (cleanCore_noTwoAdjWs _)
        (cleanCore_no_nl _) (cleanCore_stripped _)

/-- Witness for the amended C4 at a concrete backslash-free input. -/
theorem clean_idempotent_no_backslash_witness :
    ('\\' ∉ "a   b".data) ∧
    get_clean_content (some (get_clean_content (some "a   b".data))) =
      get_clean_content (some "a   b".data) :=
  ⟨by decide, clean_idempotent_no_backslash "a   b".data (by decide)⟩

/-- C5: the cleaner is total and never raises: `clean(None)` and
`clean("")` return the empty string, and every whitespace-only input
also cleans to the empty string.  (In the embedding `get_clean_content`
is a total function, so "never throws" holds by construction.) -/
theorem clean_total_on_empty_and_whitespace :
    get_clean_content none = [] ∧ get_clean_content (some []) = [] ∧
    ∀ s : List Char, (∀ c ∈ s, isPySpace c = true) → get_clean_content (some s) = [] := by
  refine ⟨rfl, rfl, ?_⟩
  intro s hws
  cases s with
  | nil => rfl
  | cons c0 r0 =>
    show cleanCore (c0 :: r0) = []
    have hbs : '\\' ∉ c0 :: r0 := fun hm => by
      have := hws '\\' hm
      simp [isPySpace] at this
    have hlt : '<' ∉ c0 :: r0 := fun hm => by
      have := hws '<' hm
      simp [isPySpace] at this
    have hamp : '&' ∉ c0 :: r0 := fun hm => by
      have := hws '&' hm
      simp [isPySpace] at this
    have hnt : noTagPair (c0 :: r0) := noTagPair_of_no_lt hlt
    rw [cleanCore_eq, preWs_eq_no_bs hbs, subDivOpen_id hnt, replaceCloseDiv_id hnt,
      subBr_id hnt, stripTags_id hnt, replaceNbsp_id (hasSub_nbsp_no_amp hamp)]
    rw [show collapseWs (c0 :: r0) = [' '] from collapseWs_all_ws hws]
    decide

/-- Witness for C5's whitespace-only clause at a concrete input. -/
theorem clean_total_witness :
    (∀ c ∈ " \t ".data, isPySpace c = true) ∧
    get_clean_content (some " \t ".data) = [] :=
  ⟨by decide, clean_total_on_empty_and_whitespace.2.2 " \t ".data (by decide)⟩

/-- C6 counterexample: a non-empty id containing no underscore is not
skipped by the deduplication loop: for the single node with id `FOO`
the loop emits the chapter key `FOO` (the id splits into one segment,
which is not more than two). -/
theorem dedup_emits_key_for_non_underscored_id :
    dedupeChapters [⟨some "FOO".data⟩] ≠ [] ∧
    dedupeChapters [⟨some "FOO".data⟩] = ["FOO".data] := by
  constructor
  · decide
  · decide

/-- C6 amended: during deduplication an empty id (or a missing `Id`
field) is silently skipped without error — no chapter key is emitted
for it and the surrounding nodes are processed exactly as if it were
absent; a non-empty id with no underscore is not skipped: it is emitted
whole as its own chapter key. -/
theorem dedup_skips_only_empty_ids :
    (∀ (fail : List Char → Bool) (pre post : List ListingNode)
      (p : List (List Char)) (n : ListingNode), nodeId n = [] →
      runLoop fail (pre ++ n :: post) p = runLoop fail (pre ++ post) p) ∧
    (∀ id : List Char, id ≠ [] → '_' ∉ id →
      chapterKey id = id ∧ dedupeChapters [⟨some id⟩] = [id]) := by
  constructor
  · intro fail pre post p n hn
    rw [runLoop_append fail pre (n :: post) p, runLoop_append fail pre post p,
      runLoop_cons_skip hn]
  · intro id hne hnu
    have hsplit : pySplit '_' id = [id] := pySplit_no_sep hnu
    have hkey : chapterKey id = id := by
      unfold chapterKey
      rw [hsplit]
      rfl
    refine ⟨hkey, ?_⟩
    unfold dedupeChapters fetch_all_austin_chapters
    have hid : nodeId ⟨some id⟩ = id := rfl
    rw [runLoop, show loopBody (fun _ => false) [] ⟨some id⟩ = .ok ([id], some id) from by
      unfold loopBody
      rw [hid, if_neg hne, if_neg (by simp), if_neg (by
        unfold numSegments
        rw [hsplit]
        simp), if_neg (by simp)]
      rw [hkey]
      rfl]
    rfl

/-- Witness for the amended C6 at concrete inputs. -/
theorem dedup_skips_only_empty_ids_witness :
    (runLoop (fun _ => false) ([⟨some "TIT1_CH1".data⟩] ++ (⟨some []⟩ : ListingNode)
        :: [⟨some "TIT1_CH2".data⟩]) []
      = runLoop (fun _ => false) ([⟨some "TIT1_CH1".data⟩] ++ [⟨some "TIT1_CH2".data⟩]) []) ∧
    (chapterKey "FOO".data = "FOO".data ∧ dedupeChapters [⟨some "FOO".data⟩] = ["FOO".data]) :=
  ⟨dedup_skips_only_empty_ids.1 _ _ _ _ _ rfl,
   dedup_skips_only_empty_ids.2 "FOO".data (by decide) (by decide)⟩

/-- C7: per-chapter failures are isolated.  If fetching or persisting
chapter `K` fails (the failure is caught by the loop's `except` and the
run continues — `runLoop` is a total function), then `K` never enters
the processed set, the processed set of a run containing a node for `K`
is exactly that of the run without it (so every later chapter is
handled identically), and every fetch attempted without the failing
node is still attempted with it. -/
theorem chapter_fetch_failure_isolated (fail : List Char → Bool) (K : List Char)
    (hK : fail K = true) :
    (∀ chapters : List ListingNode, K ∉ (fetch_all_austin_chapters fail chapters).1) ∧
    (∀ (pre post : List ListingNode) (n : ListingNode), chapterKey (nodeId n) = K →
      (fetch_all_austin_chapters fail (pre ++ n :: post)).1
        = (fetch_all_austin_chapters fail (pre ++ post)).1 ∧
      (fetch_all_austin_chapters fail (pre ++ post)).2.Sublist
        (fetch_all_austin_chapters fail (pre ++ n :: post)).2) := by
  constructor
  · intro chapters
    exact runLoop_not_mem_of_fail hK chapters [] (by simp)
  · intro pre post n hkey
    unfold fetch_all_austin_chapters
    rw [runLoop_append fail pre (n :: post) [], runLoop_append fail pre post []]
    obtain ⟨h1, h2⟩ := runLoop_cons_failkey hK hkey post (runLoop fail pre []).1
    refine ⟨by simpa using h1, ?_⟩
    have h3 := h2.append_left (runLoop fail pre []).2
    simpa using h3

/-- Witness for C7 at a concrete run: chapter `TIT1_CH9` fails, the
surrounding chapters are processed as if it were absent. -/
theorem chapter_fetch_failure_isolated_witness :
    ((fun k => decide (k = "TIT1_CH9".data)) "TIT1_CH9".data = true) ∧
    ("TIT1_CH9".data ∉ (fetch_all_austin_chapters (fun k => decide (k = "TIT1_CH9".data))
      [⟨some "TIT1_CH1".data⟩, ⟨some "TIT1_CH9".data⟩, ⟨some "TIT1_CH2".data⟩]).1) ∧
    (fetch_all_austin_chapters (fun k => decide (k = "TIT1_CH9".data))
        ([⟨some "TIT1_CH1".data⟩] ++ ⟨some "TIT1_CH9".data⟩ :: [⟨some "TIT1_CH2".data⟩])).1
      = (fetch_all_austin_chapters (fun k => decide (k = "TIT1_CH9".data))
        ([⟨some "TIT1_CH1".data⟩] ++ [⟨some "TIT1_CH2".data⟩])).1 :=
  ⟨by decide,
   (chapter_fetch_failure_isolated (fun k => decide (k = "TIT1_CH9".data))
     "TIT1_CH9".data (by decide)).1 _,
   ((chapter_fetch_failure_isolated (fun k => decide (k = "TIT1_CH9".data))
     "TIT1_CH9".data (by decide)).2
     [⟨some "TIT1_CH1".data⟩] [⟨some "TIT1_CH2".data⟩] ⟨some "TIT1_CH9".data⟩ (by decide)).1⟩

/-- C8: the document-record construction is total with the documented
defaults: for every raw API element, a missing integer field becomes
`0`, a missing boolean becomes `false`, a missing sequence becomes the
empty sequence, a missing string becomes the empty string, and the
optional `SortDate`/`Footnotes` are passed through (absent stays
absent); present fields are preserved. -/
theorem parse_doc_total_defaults (α : Type) (raw : RawDoc α) :
    (raw.DocType = none → (parseDoc raw).DocType = 0) ∧
    (raw.IsAmended = none → (parseDoc raw).IsAmended = false) ∧
    (raw.IsUpdated = none → (parseDoc raw).IsUpdated = false) ∧
    (raw.CompareStatus = none → (parseDoc raw).CompareStatus = 0) ∧
    (raw.DocOrderId = none → (parseDoc raw).DocOrderId = 0) ∧
    (raw.AmendedBy = none → (parseDoc raw).AmendedBy = []) ∧
    (raw.Notes = none → (parseDoc raw).Notes = []) ∧
    (raw.Drafts = none → (parseDoc raw).Drafts = []) ∧
    (raw.ChunkGroupStartingNodeId = none → (parseDoc raw).ChunkGroupStartingNodeId = []) ∧
    (raw.NodeDepth = none → (parseDoc raw).NodeDepth = 0) ∧
    (raw.TitleHtml = none → (parseDoc raw).TitleHtml = []) ∧
    (raw.Id = none → (parseDoc raw).Id = []) ∧
    (raw.Title = none → (parseDoc raw).Title = []) ∧
    (raw.Content = none → (parseDoc raw).Content = []) ∧
    (parseDoc raw).SortDate = raw.SortDate ∧
    (parseDoc raw).Footnotes = raw.Footnotes ∧
    (∀ v, raw.DocType = some v → (parseDoc raw).DocType = v) ∧
    (∀ v, raw.IsAmended = some v → (parseDoc raw).IsAmended = v) ∧
    (∀ v, raw.NodeDepth = some v → (parseDoc raw).NodeDepth = v) ∧
    (∀ v, raw.Content = some v → (parseDoc raw).Content = v) := by
  exact ⟨fun h => by simp [parseDoc, h], fun h => by simp [parseDoc, h],
    fun h => by simp [parseDoc, h], fun h => by simp [parseDoc, h],
    fun h => by simp [parseDoc, h], fun h => by simp [parseDoc, h],
    fun h => by simp [parseDoc, h], fun h => by simp [parseDoc, h],
    fun h => by simp [parseDoc, h], fun h => by simp [parseDoc, h],
    fun h => by simp [parseDoc, h], fun h => by simp [parseDoc, h],
    fun h => by simp [parseDoc, h], fun h => by simp [parseDoc, h], rfl, rfl,
    fun v h => by simp [parseDoc, h], fun v h => by simp [parseDoc, h],
    fun v h => by simp [parseDoc, h], fun v h => by simp [parseDoc, h]⟩

/-- Witness for C8 at the all-absent raw element. -/
theorem parse_doc_total_defaults_witness :
    (parseDoc (⟨none, none, none, none, none, none, none, none, none, none, none,
      none, none, none, none, none⟩ : RawDoc Unit)).DocType = 0 ∧
    (parseDoc (⟨none, none, none, none, none, none, none, none, none, none, none,
      none, none, none, none, none⟩ : RawDoc Unit)).IsAmended = false ∧
    (parseDoc (⟨none, none, none, none, none, none, none, none, none, none, none,
      none, none, none, none, none⟩ : RawDoc Unit)).AmendedBy = [] ∧
    (parseDoc (⟨none, none, none, none, none, none, none, none, none, none, none,
      none, none, none, none, none⟩ : RawDoc Unit)).Title = [] ∧
    (parseDoc (⟨none, none, none, none, none, none, none, none, none, none, none,
      none, none, none, none, none⟩ : RawDoc Unit)).SortDate = none :=
  ⟨(parse_doc_total_defaults Unit _).1 rfl,
   (parse_doc_total_defaults Unit _).2.1 rfl,
   (parse_doc_total_defaults Unit _).2.2.2.2.2.1 rfl,
   (parse_doc_total_defaults Unit _).2.2.2.2.2.2.2.2.2.2.2.2.1 rfl,
   (parse_doc_total_defaults Unit _).2.2.2.2.2.2.2.2.2.2.2.2.2.2.1⟩

/-- C9: the node-id builder produces the canonical underscore-joined
identifier: `build_node_id("25LADE", "25-2ZO")` is
`TIT25LADE_CH25-2ZO`, and when a (non-empty, hence truthy) subchapter
and article are both supplied they are appended in order, separated by
underscores. -/
theorem build_node_id_canonical :
    build_node_id "25LADE" "25-2ZO" none none = "TIT25LADE_CH25-2ZO" ∧
    ∀ (t c sc a : String), sc ≠ "" → a ≠ "" →
      build_node_id t c (some sc) (some a) =
        "TIT" ++ t ++ "_CH" ++ c ++ "_" ++ sc ++ "_" ++ a := by
  constructor
  · rfl
  · intro t c sc a hsc ha
    simp [build_node_id, hsc, ha]

/-- Witness for C9 with both optional parts supplied. -/
theorem build_node_id_canonical_witness :
    build_node_id "25LADE" "25-2ZO" (some "SUBCH") (some "ART1") =
      "TIT25LADE_CH25-2ZO_SUBCH_ART1" :=
  build_node_id_canonical.2 "25LADE" "25-2ZO" "SUBCH" "ART1"
    (by decide) (by decide)

/-- C10: for every input, the cleaned output is a single line with
normalized spacing: it contains no newline, no two adjacent spaces, and
no leading or trailing whitespace (stripping it again changes
nothing). -/
theorem clean_output_single_line_normalized (s : List Char) :
    (get_clean_content (some s)).contains '\n' = false ∧
    noTwoAdjSpaces (get_clean_content (some s)) = true ∧
    pyStrip (get_clean_content (some s)) = get_clean_content (some s) := by
  cases s with
  | nil => exact ⟨rfl, rfl, rfl⟩
  | cons c0 r0 =>
    refine ⟨?_, noTwoAdjSpaces_of_ws (cleanCore_noTwoAdjWs (c0 :: r0)),
      cleanCore_stripped (c0 :: r0)⟩
    simpa using cleanCore_no_nl (c0 :: r0)

end Setbacks
